import Mathlib

/-!
Verification of the multicore runtime header `src/rts/c/multicore_defs.h`.

The file embeds the executable parts of the header (the linear congruential
generator `fast_srand`/`fast_rand`, the bit-field helpers `pick_bits`,
`pack_vals`, `get_C`, `get_nmax`) as Lean functions over exact integers, with
machine words represented as natural-number bit patterns reduced modulo
`2 ^ w` and two's-complement signed readings made explicit.  A finite IEEE-754
binary32 value is represented by its exact rational value, together with the
representability predicate `isF32`; the C conversions `(int32_t)` on a float
(truncation toward zero) and `(float)` on an integer (rounding to nearest,
ties to even) are modelled exactly on the ranges the header uses.

The scheduler bodies (initial task splitting, the work-stealing deque) are
declared but not implemented in this header, so those components are
modelled from the specification; each such definition carries a doc comment
saying so.
-/

/-- Bit pattern, as a natural number below `2 ^ 64`, obtained when the integer
value `z` is reduced into a 64-bit word: models a C conversion to `uint64_t`
and the two's-complement wrap-around of 64-bit arithmetic. -/
def toU64 (z : ℤ) : ℕ := (z % (2 : ℤ) ^ 64).toNat

/-- Signed value of a 64-bit pattern, i.e. the two's-complement reading of
`n` as a C `int64_t`. -/
def toI64 (n : ℕ) : ℤ :=
  if n % 2 ^ 64 < 2 ^ 63 then (n % 2 ^ 64 : ℕ) else (n % 2 ^ 64 : ℕ) - 2 ^ 64

/-- Bit pattern, as a natural number below `2 ^ 32`, of the integer value `z`
reduced into a 32-bit word (C conversion to `uint32_t` / `unsigned int`). -/
def toU32 (z : ℤ) : ℕ := (z % (2 : ℤ) ^ 32).toNat

/-- Signed value of a 32-bit pattern, i.e. the two's-complement reading of
`n` as a C `int32_t`. -/
def toI32 (n : ℕ) : ℤ :=
  if n % 2 ^ 32 < 2 ^ 31 then (n % 2 ^ 32 : ℕ) else (n % 2 ^ 32 : ℕ) - 2 ^ 32

/-- Truncation of a rational toward zero: the semantics of C's float-to-int
conversion, defined whenever the truncated value fits the target type. -/
def truncQ (q : ℚ) : ℤ := if 0 ≤ q then ⌊q⌋ else ⌈q⌉

/-- Exact value of the C expression `(int32_t)C` for a float of exact value
`C` (defined behaviour only when the truncation is in `int32_t` range; the
function is total here and theorems carry the range hypotheses). -/
def f2i32 (C : ℚ) : ℤ := truncQ C

/-- Rounding of a natural number to 24 significant bits, round to nearest
with ties to even: the mantissa rounding performed by a C conversion of a
non-negative integer to `float` (faithful below the binary32 overflow
threshold `2 ^ 128`, which covers every use in the header). -/
def roundNatF32 (n : ℕ) : ℕ :=
  if n < 2 ^ 24 then n
  else if 2 ^ (Nat.log 2 n - 24) < n % 2 ^ (Nat.log 2 n - 23)
      ∨ (n % 2 ^ (Nat.log 2 n - 23) = 2 ^ (Nat.log 2 n - 24)
          ∧ (n / 2 ^ (Nat.log 2 n - 23)) % 2 = 1) then
    (n / 2 ^ (Nat.log 2 n - 23) + 1) * 2 ^ (Nat.log 2 n - 23)
  else
    (n / 2 ^ (Nat.log 2 n - 23)) * 2 ^ (Nat.log 2 n - 23)

/-- Exact value of the C expression `(float)z` for an integer `z`: rounding
to nearest, ties to even, onto 24 significant bits (faithful for
`|z| < 2 ^ 128`; the header only ever converts values below `2 ^ 32`). -/
def i2f32 (z : ℤ) : ℚ :=
  if 0 ≤ z then (roundNatF32 z.toNat : ℚ) else -((roundNatF32 (-z).toNat : ℚ))

/-- Representability of an exact rational value as a finite IEEE-754 binary32
float: a 24-bit signed mantissa scaled by a power of two in the binary32
exponent range. -/
def isF32 (q : ℚ) : Prop :=
  ∃ (m e : ℤ), m.natAbs < 2 ^ 24 ∧ -149 ≤ e ∧ e ≤ 104 ∧ q = (m : ℚ) * (2 : ℚ) ^ e

/-- State update of `fast_srand` from `multicore_defs.h`: `g_seed = seed;`
with `g_seed` a C `unsigned int` (32 bits), so the signed seed argument is
reduced to its 32-bit pattern. -/
def fast_srand (seed : ℤ) : ℕ := toU32 seed

/-- One call of `fast_rand` from `multicore_defs.h`:
`g_seed = (214013*g_seed+2531011); return (g_seed>>16)&0x7FFF;`.
Returns the updated `g_seed` state together with the returned `int`. -/
def fast_rand (g_seed : ℕ) : ℕ × ℤ :=
  let g := (214013 * g_seed + 2531011) % 2 ^ 32
  (g, ((g >>> 16) &&& 0x7FFF : ℕ))

/-- Outputs and final generator state of `n` successive `fast_rand` calls
starting from state `g`. -/
def fast_rand_stream (g : ℕ) : ℕ → List ℤ × ℕ
  | 0 => ([], g)
  | Nat.succ k =>
    let r := fast_rand g
    let rest := fast_rand_stream r.1 k
    (r.2 :: rest.1, rest.2)

/-- The function `pick_bits` from `multicore_defs.h`:
`uint64_t v = value; v >>= lsb; if (sz < 64) { mask = (1 << sz) - 1; v &= mask; } return v;`
with the mask built by `mask = 1; mask <<= sz; mask -= 1;` in `uint64_t`
arithmetic.  Shift amounts are natural numbers (C behaviour is undefined at
64 and above; theorems restrict to the defined range). -/
def pick_bits (lsb sz : ℕ) (value : ℤ) : ℤ :=
  let v : ℕ := toU64 value
  let v : ℕ := v >>> lsb
  let v : ℕ :=
    if sz < 64 then
      let mask : ℕ := 1
      let mask : ℕ := (mask <<< sz) % 2 ^ 64
      let mask : ℕ := mask - 1
      v &&& mask
    else v
  toI64 v

/-- The function `pack_vals` from `multicore_defs.h`:
`int64_t nmax_64_shifted = (int64_t) nmax << 32; return nmax_64_shifted | (int32_t)C;`.
The float argument is given by its exact value; `(int32_t)C` truncates it and
is sign-extended to 64 bits by the integer promotion feeding the `|`.  The
left shift of a negative `nmax` is modelled as the usual two's-complement
wrap. -/
def pack_vals (C : ℚ) (nmax : ℤ) : ℤ :=
  let nmax_64_shifted : ℤ := toI64 (toU64 (nmax * 2 ^ 32))
  toI64 (toU64 nmax_64_shifted ||| toU64 (f2i32 C))

/-- The function `get_C` from `multicore_defs.h`:
`return (float)pick_bits(0, 32, val);`. -/
def get_C (val : ℤ) : ℚ := i2f32 (pick_bits 0 32 val)

/-- The function `get_nmax` from `multicore_defs.h`:
`return (int32_t)pick_bits(32, 32, val);`. -/
def get_nmax (val : ℤ) : ℤ := toI32 (toU32 (pick_bits 32 32 val))

/-- The numeric fields of `struct scheduler_info` from `multicore_defs.h`
(`iter_pr_subtask`, `remainder`, `nsubtasks`). -/
structure scheduler_info where
  iter_pr_subtask : ℕ
  remainder : ℕ
  nsubtasks : ℕ

/-- Modelled from the spec: the header declares `struct scheduler_info` but
the code computing it is not in the repository sources.  Per §3 and §4.3 of
the spec, a submission with `iterations` iterations split over `nsubtasks`
subtasks sets `iter_pr_subtask` to the quotient and `remainder` to what is
left over ("iterations-per-subtask may not evenly divide total iterations"),
the remainder being distributed to the first subtasks one extra unit each. -/
def compute_info (iterations nsubtasks : ℕ) : scheduler_info :=
  ⟨iterations / nsubtasks, iterations % nsubtasks, nsubtasks⟩

/-- Modelled from the spec: the initial split of a task into subtask
iteration ranges (`struct subtask` has `start`/`end` fields but the splitting
code is not in the repository sources).  Starting at `start`, each of the `n`
subtasks receives `ips` iterations, plus one extra unit while any of the
`rem` remainder units is left, the ranges being contiguous. -/
def split_ranges (start ips rem : ℕ) : ℕ → List (ℕ × ℕ)
  | 0 => []
  | Nat.succ k =>
    let len := ips + (if 0 < rem then 1 else 0)
    (start, start + len) :: split_ranges (start + len) ips (rem - 1) k

/-- Modelled from the spec: the full initial split of a submission of
`iterations` iterations over `nsubtasks` subtasks, using the quotient and
remainder of `compute_info`. -/
def subtask_ranges (iterations nsubtasks : ℕ) : List (ℕ × ℕ) :=
  split_ranges 0 (compute_info iterations nsubtasks).iter_pr_subtask
    (compute_info iterations nsubtasks).remainder nsubtasks

/-- Modelled from the spec: the collections of subtask ranges that can ever
exist for one task — the initial split, followed by any number of thief
re-splits of a chunkable subtask into two contiguous halves (§4.2: "the thief
first splits it into two contiguous ranges"). -/
inductive spawned (iterations nsubtasks : ℕ) : List (ℕ × ℕ) → Prop
  | init : spawned iterations nsubtasks (subtask_ranges iterations nsubtasks)
  | split (pre post : List (ℕ × ℕ)) (s m e : ℕ) :
      spawned iterations nsubtasks (pre ++ (s, e) :: post) →
      s ≤ m → m ≤ e →
      spawned iterations nsubtasks (pre ++ (s, m) :: (m, e) :: post)

/-- Proposition that a list of `[start, end)` ranges, in order, exactly tiles
the interval `[a, b)`: consecutive ranges abut (no gap, no overlap), the
first starts at `a` and the last ends at `b`. -/
def tiles : ℕ → ℕ → List (ℕ × ℕ) → Prop
  | a, b, [] => a = b
  | a, b, (s, e) :: rest => s = a ∧ a ≤ e ∧ tiles e b rest

/-- Operations on one work-stealing deque. -/
inductive dq_op (α : Type) : Type
  | push_bottom (x : α) : dq_op α
  | pop_bottom : dq_op α
  | steal : dq_op α

/-- Accounting state of one deque: the pending buffer (head = bottom, the
owner's end; last = top, the thieves' end) together with the elements so far
returned by `pop_bottom` and by `steal`. -/
structure dq_state (α : Type) where
  buf : List α
  popped : List α
  stolen : List α

/-- Modelled from the spec: the header declares `struct deque` but the deque
code is not in the repository sources.  Per §4.1, `push_bottom` inserts at
the bottom, `pop_bottom` removes the most recently pushed element (owner
LIFO), `steal` removes the oldest pending element (thief FIFO); on an empty
deque the removals return nothing.  Each operation is one atomic
(linearized) step, which is the contract the lock-free code implements. -/
def dq_step (st : dq_state α) : dq_op α → dq_state α
  | .push_bottom x => ⟨x :: st.buf, st.popped, st.stolen⟩
  | .pop_bottom =>
    match st.buf with
    | [] => st
    | x :: rest => ⟨rest, x :: st.popped, st.stolen⟩
  | .steal =>
    match st.buf.reverse with
    | [] => st
    | x :: rest => ⟨rest.reverse, st.popped, x :: st.stolen⟩

/-- Final accounting state after an operation sequence on an initially empty
deque. -/
def dq_run (ops : List (dq_op α)) : dq_state α := ops.foldl dq_step ⟨[], [], []⟩

/-- Elements pushed by an operation sequence, in order. -/
def dq_pushed (ops : List (dq_op α)) : List α :=
  ops.filterMap fun op =>
    match op with
    | .push_bottom x => some x
    | _ => none

theorem toU64_lt (z : ℤ) : toU64 z < 2 ^ 64 := by
  simp only [toU64]; omega

theorem toU64_toI64 {n : ℕ} (h : n < 2 ^ 64) : toU64 (toI64 n) = n := by
  simp only [toU64, toI64]
  split <;> omega

theorem toI64_of_lt {n : ℕ} (h : n < 2 ^ 63) : toI64 n = n := by
  simp only [toI64]; split <;> omega

theorem toU64_of_nonneg {z : ℤ} (h0 : 0 ≤ z) (h1 : z < 2 ^ 64) : toU64 z = z.toNat := by
  simp only [toU64]; omega

theorem toU32_lt (z : ℤ) : toU32 z < 2 ^ 32 := by
  simp only [toU32]; omega

theorem toU32_natCast_of_lt {n : ℕ} (h : n < 2 ^ 32) : toU32 (n : ℤ) = n := by
  simp only [toU32]; omega

theorem toI32_toU32 {z : ℤ} (h0 : -2 ^ 31 ≤ z) (h1 : z < 2 ^ 31) : toI32 (toU32 z) = z := by
  simp only [toI32, toU32]
  split <;> omega

theorem toU64_mul_shift (nmax : ℤ) : toU64 (nmax * 2 ^ 32) = 2 ^ 32 * toU32 nmax := by
  simp only [toU64, toU32]
  omega

/-- Closed form of `pick_bits` for a field size below 64: the shifted value
reduced modulo `2 ^ sz`. -/
theorem pick_bits_char (lsb sz : ℕ) (value : ℤ) (h : sz < 64) :
    pick_bits lsb sz value = ((toU64 value / 2 ^ lsb) % 2 ^ sz : ℕ) := by
  have hm : ((1 : ℕ) <<< sz) % 2 ^ 64 = 2 ^ sz := by
    rw [Nat.shiftLeft_eq, one_mul]
    exact Nat.mod_eq_of_lt (Nat.pow_lt_pow_right (by norm_num) h)
  simp only [pick_bits, if_pos h, hm, Nat.and_pow_two_sub_one_eq_mod,
    Nat.shiftRight_eq_div_pow]
  refine toI64_of_lt (lt_of_lt_of_le (Nat.mod_lt _ (by positivity)) ?_)
  exact Nat.pow_le_pow_right (by norm_num) (by omega)

/-- C9: for every `lsb` in `[0, 63]`, every `sz` with `0 ≤ sz < 64`, and
every 64-bit value, `pick_bits lsb sz value` equals the unsigned reading of
`value` shifted right by `lsb` and reduced modulo `2 ^ sz`, and hence always
lies in `[0, 2 ^ sz)`. -/
theorem C9_pick_bits_spec (lsb sz : ℕ) (value : ℤ) (h1 : lsb ≤ 63) (h2 : sz < 64) :
    pick_bits lsb sz value = ((toU64 value / 2 ^ lsb) % 2 ^ sz : ℕ) ∧
    0 ≤ pick_bits lsb sz value ∧ pick_bits lsb sz value < 2 ^ sz := by
  refine ⟨pick_bits_char lsb sz value h2, ?_, ?_⟩
  · rw [pick_bits_char lsb sz value h2]
    exact Int.natCast_nonneg _
  · rw [pick_bits_char lsb sz value h2]
    exact_mod_cast Nat.mod_lt _ (show 0 < 2 ^ sz by positivity)

/-- Witness for C9 at `lsb = 32`, `sz = 8`, `value = -1`. -/
theorem C9_pick_bits_spec_witness :
    pick_bits 32 8 (-1) = ((toU64 (-1) / 2 ^ 32) % 2 ^ 8 : ℕ) ∧
    0 ≤ pick_bits 32 8 (-1) ∧ pick_bits 32 8 (-1) < 2 ^ 8 :=
  C9_pick_bits_spec 32 8 (-1) (by norm_num) (by norm_num)

/-- C3: for every 64-bit word `val`, `get_C val` is the low 32 bits of `val`
converted to a floating-point value, and `get_nmax val` is the high 32 bits
of `val` read as a signed 32-bit integer. -/
theorem C3_unpack_fields (val : ℤ) :
    get_C val = i2f32 (toU64 val % 2 ^ 32 : ℕ) ∧
    get_nmax val = toI32 (toU64 val / 2 ^ 32) := by
  constructor
  · rw [get_C, pick_bits_char 0 32 val (by norm_num)]
    norm_num
  · rw [get_nmax, pick_bits_char 32 32 val (by norm_num)]
    have hlt : toU64 val / 2 ^ 32 < 2 ^ 32 := by
      have := toU64_lt val
      omega
    rw [Nat.mod_eq_of_lt hlt, toU32_natCast_of_lt hlt]

/-- C4: for every value of the generator state `g_seed`, the integer returned
by `fast_rand` lies in the range `[0, 32767]`. -/
theorem C4_fast_rand_range (g_seed : ℕ) :
    0 ≤ (fast_rand g_seed).2 ∧ (fast_rand g_seed).2 ≤ 32767 := by
  refine ⟨Int.natCast_nonneg _, ?_⟩
  have h : (((214013 * g_seed + 2531011) % 2 ^ 32) >>> 16) &&& 0x7FFF ≤ 32767 := by
    rw [show (0x7FFF : ℕ) = 2 ^ 15 - 1 from rfl, Nat.and_pow_two_sub_one_eq_mod]
    have := Nat.mod_lt (((214013 * g_seed + 2531011) % 2 ^ 32) >>> 16)
      (show 0 < 2 ^ 15 by norm_num)
    omega
  simp only [fast_rand]
  exact_mod_cast h

/-- C8: the generator is deterministic — runs started from equal seeds
produce equal output sequences and equal successor states at every length. -/
theorem C8_rng_deterministic (seed1 seed2 : ℤ) (h : seed1 = seed2) (n : ℕ) :
    fast_rand_stream (fast_srand seed1) n = fast_rand_stream (fast_srand seed2) n := by
  rw [h]

/-- Witness for C8 at equal seeds `12345` and run length `4`. -/
theorem C8_rng_deterministic_witness :
    (12345 : ℤ) = 12345 ∧
    fast_rand_stream (fast_srand 12345) 4 = fast_rand_stream (fast_srand 12345) 4 :=
  ⟨rfl, C8_rng_deterministic 12345 12345 rfl 4⟩

/-- Rounding to binary32 precision is the identity on a natural number that
is exactly the value of a binary32 float: such a number below `2 ^ 24` is
kept verbatim, and a larger one is divisible by the power of two that the
rounding step strips and restores. -/
theorem roundNatF32_of_isF32 {n : ℕ} (h : isF32 (n : ℚ)) : roundNatF32 n = n := by
  by_cases h24 : n < 2 ^ 24
  · rw [roundNatF32, if_pos h24]
  · obtain ⟨m, e, hm, -, -, heq⟩ := h
    have hn0 : n ≠ 0 := by
      intro h0
      rw [h0] at h24
      exact h24 (by norm_num)
    have hepos : 0 < e := by
      by_contra hle
      push_neg at hle
      have h2e : (2 : ℚ) ^ e ≤ 1 := zpow_le_one_of_nonpos₀ (by norm_num) hle
      have h2epos : (0 : ℚ) < (2 : ℚ) ^ e := zpow_pos (by norm_num) e
      have habs : (n : ℚ) ≤ (m.natAbs : ℚ) := by
        calc (n : ℚ) = |(n : ℚ)| := (abs_of_nonneg (by positivity)).symm
          _ = |(m : ℚ)| * |(2 : ℚ) ^ e| := by rw [heq, abs_mul]
          _ = |(m : ℚ)| * (2 : ℚ) ^ e := by rw [abs_of_pos h2epos]
          _ ≤ |(m : ℚ)| * 1 := mul_le_mul_of_nonneg_left h2e (abs_nonneg _)
          _ = (m.natAbs : ℚ) := by rw [mul_one, Nat.cast_natAbs, Int.cast_abs]
      have hle24 : n ≤ m.natAbs := by exact_mod_cast habs
      omega
    obtain ⟨k, rfl⟩ : ∃ k : ℕ, e = (k : ℤ) := ⟨e.toNat, (Int.toNat_of_nonneg hepos.le).symm⟩
    rw [zpow_natCast] at heq
    have hz : (n : ℤ) = m * 2 ^ k := by exact_mod_cast heq
    have hm0 : 0 ≤ m := by
      by_contra hneg
      push_neg at hneg
      have hlt0 : m * 2 ^ k < 0 := mul_neg_of_neg_of_pos hneg (by positivity)
      have hge0 : (0 : ℤ) ≤ (n : ℤ) := Int.natCast_nonneg n
      rw [hz] at hge0
      exact absurd hge0 (not_le.mpr hlt0)
    have hM : ((m.toNat : ℤ)) = m := Int.toNat_of_nonneg hm0
    have hzn : n = m.toNat * 2 ^ k := by
      have : (n : ℤ) = (m.toNat : ℤ) * 2 ^ k := by rw [hM, hz]
      exact_mod_cast this
    have hMlt : m.toNat < 2 ^ 24 := by omega
    have hk1 : 1 ≤ k := by
      by_contra hk0
      push_neg at hk0
      interval_cases k
      simp only [pow_zero, mul_one] at hzn
      omega
    have hlog_lo : 24 ≤ Nat.log 2 n :=
      (Nat.pow_le_iff_le_log (by norm_num) hn0).mp (by omega)
    have hlt : n < 2 ^ (24 + k) := by
      rw [hzn, pow_add]
      exact mul_lt_mul_of_pos_right hMlt (by positivity)
    have hlog_hi : Nat.log 2 n < 24 + k := Nat.log_lt_of_lt_pow hn0 hlt
    have hdvd2 : 2 ^ k ∣ n := ⟨m.toNat, by rw [hzn]; ring⟩
    have hdvd : 2 ^ (Nat.log 2 n - 23) ∣ n :=
      dvd_trans (pow_dvd_pow 2 (by omega)) hdvd2
    have hr : n % 2 ^ (Nat.log 2 n - 23) = 0 := Nat.mod_eq_zero_of_dvd hdvd
    rw [roundNatF32, if_neg h24, if_neg, Nat.div_mul_cancel hdvd]
    rw [hr]
    rintro (habs | ⟨habs, -⟩)
    · exact Nat.not_lt_zero _ habs
    · exact pow_ne_zero _ (by norm_num) habs.symm

/-- Conversion of a natural number to `float` is exact when the number is
the value of a binary32 float. -/
theorem i2f32_natCast_of_isF32 {n : ℕ} (h : isF32 (n : ℚ)) : i2f32 (n : ℤ) = (n : ℚ) := by
  rw [i2f32, if_pos (Int.natCast_nonneg n), Int.toNat_natCast, roundNatF32_of_isF32 h]

/-- Unsigned decomposition of the packed word: when the truncated `C` is a
non-negative `int32` value and `nmax` is in `int32` range, the 64-bit pattern
produced by `pack_vals` is `nmax`'s pattern shifted up 32 bits plus the
truncated `C`. -/
theorem pack_vals_toU64 (C : ℚ) (nmax : ℤ) (h1 : 0 ≤ f2i32 C) (h2 : f2i32 C < 2 ^ 31)
    (h3 : -2 ^ 31 ≤ nmax) (h4 : nmax < 2 ^ 31) :
    toU64 (pack_vals C nmax) = 2 ^ 32 * toU32 nmax + (f2i32 C).toNat := by
  have hu : toU32 nmax < 2 ^ 32 := toU32_lt nmax
  have hb : (f2i32 C).toNat < 2 ^ 32 := by omega
  have hshift : toU64 (toI64 (toU64 (nmax * 2 ^ 32))) = 2 ^ 32 * toU32 nmax := by
    rw [toU64_toI64 (toU64_lt _), toU64_mul_shift]
  have hC : toU64 (f2i32 C) = (f2i32 C).toNat := toU64_of_nonneg h1 (by omega)
  have hor : 2 ^ 32 * toU32 nmax ||| (f2i32 C).toNat
      = 2 ^ 32 * toU32 nmax + (f2i32 C).toNat := (Nat.mul_add_lt_is_or hb _).symm
  have hlt : 2 ^ 32 * toU32 nmax + (f2i32 C).toNat < 2 ^ 64 := by omega
  simp only [pack_vals]
  rw [hshift, hC, hor, toU64_toI64 hlt]

/-- Shared core of the round-trip claims: for a float whose exact value is a
natural number `n < 2 ^ 31` and an `int32` `nmax`, unpacking the packed word
recovers both components. -/
theorem pack_unpack (C : ℚ) (nmax : ℤ) (n : ℕ) (hC : isF32 C) (hCn : C = (n : ℚ))
    (hn : n < 2 ^ 31) (h3 : -2 ^ 31 ≤ nmax) (h4 : nmax < 2 ^ 31) :
    get_C (pack_vals C nmax) = C ∧ get_nmax (pack_vals C nmax) = nmax := by
  have hf : f2i32 C = n := by
    rw [hCn, f2i32, truncQ, if_pos (by positivity), Int.floor_natCast]
  have h1 : 0 ≤ f2i32 C := by rw [hf]; exact Int.natCast_nonneg n
  have h2 : f2i32 C < 2 ^ 31 := by rw [hf]; exact_mod_cast hn
  have hu : toU32 nmax < 2 ^ 32 := toU32_lt nmax
  have hP := pack_vals_toU64 C nmax h1 h2 h3 h4
  constructor
  · rw [get_C, pick_bits_char 0 32 _ (by norm_num), hP]
    have hlow : (2 ^ 32 * toU32 nmax + (f2i32 C).toNat) / 2 ^ 0 % 2 ^ 32 = n := by
      rw [hf, Int.toNat_natCast]
      omega
    rw [hlow, hCn]
    exact i2f32_natCast_of_isF32 (hCn ▸ hC)
  · rw [get_nmax, pick_bits_char 32 32 _ (by norm_num), hP]
    have hhigh : (2 ^ 32 * toU32 nmax + (f2i32 C).toNat) / 2 ^ 32 % 2 ^ 32 = toU32 nmax := by
      have hb : (f2i32 C).toNat < 2 ^ 32 := by omega
      omega
    rw [hhigh, toU32_natCast_of_lt hu]
    exact toI32_toU32 h3 h4

/-- C1 counterexample: the representable pair `C = 1/2`, `nmax = 0` is not
recovered — `(int32_t)C` truncates the fraction away, so `get_C` of the
packed word is `0`, not `1/2`. -/
theorem C1_counterexample :
    isF32 (1 / 2 : ℚ) ∧ ¬(get_C (pack_vals (1 / 2) 0) = 1 / 2
      ∧ get_nmax (pack_vals (1 / 2) 0) = 0) := by
  constructor
  · exact ⟨1, -1, by norm_num⟩
  · have hf : f2i32 (1 / 2 : ℚ) = 0 := by
      rw [f2i32, truncQ, if_pos (by norm_num)]
      norm_num
    have hpack : pack_vals (1 / 2 : ℚ) 0 = 0 := by
      simp only [pack_vals, hf]
      norm_num [toU64, toI64]
    have hget : get_C (0 : ℤ) = 0 := by
      rw [get_C, pick_bits_char 0 32 0 (by norm_num)]
      norm_num [toU64, i2f32, roundNatF32]
    rw [hpack, hget]
    intro hcon
    exact absurd hcon.1 (by norm_num)

/-- C1 amended: the round-trip pair of equalities holds whenever the float
`C` has a non-negative integer value below `2 ^ 31` (so that the `(int32_t)`
conversion is exact, non-negative and in range) and `nmax` is any `int32`
value; `get_C` then returns a float equal to `C` and `get_nmax` returns
`nmax` exactly. -/
theorem C1_amended_roundtrip (C : ℚ) (nmax : ℤ) (n : ℕ)
    (hC : isF32 C) (hCn : C = (n : ℚ)) (hn : n < 2 ^ 31)
    (h3 : -2 ^ 31 ≤ nmax) (h4 : nmax < 2 ^ 31) :
    get_C (pack_vals C nmax) = C ∧ get_nmax (pack_vals C nmax) = nmax :=
  pack_unpack C nmax n hC hCn hn h3 h4

/-- Witness for the amended C1 at `C = 3`, `nmax = 11`. -/
theorem C1_amended_roundtrip_witness :
    isF32 (3 : ℚ) ∧ get_C (pack_vals 3 11) = 3 ∧ get_nmax (pack_vals 3 11) = 11 := by
  have hC : isF32 (3 : ℚ) := ⟨3, 0, by norm_num⟩
  have h := C1_amended_roundtrip 3 11 3 hC (by norm_num) (by norm_num)
    (by norm_num) (by norm_num)
  exact ⟨hC, h.1, h.2⟩

/-- C2 counterexample: at the float `C = -1` and `nmax = 0` the two fields do
disturb each other — `(int32_t)C = -1` is sign-extended to all-ones before
the bitwise or, so the high 32 bits of the packed word are `2 ^ 32 - 1`
rather than `nmax`'s pattern `0`. -/
theorem C2_counterexample :
    isF32 (-1 : ℚ) ∧ toU64 (pack_vals (-1) 0) / 2 ^ 32 ≠ toU32 0 := by
  constructor
  · exact ⟨-1, 0, by norm_num⟩
  · have hf : f2i32 (-1 : ℚ) = -1 := by
      rw [f2i32, truncQ, if_neg (by norm_num)]
      rw [show ((-1 : ℚ)) = ((-1 : ℤ) : ℚ) by norm_num, Int.ceil_intCast]
    have hshift : toU64 (toI64 (toU64 ((0 : ℤ) * 2 ^ 32))) = 0 := by
      norm_num [toU64, toI64]
    have hpack : pack_vals (-1 : ℚ) 0 = -1 := by
      simp only [pack_vals, hf, hshift, Nat.zero_or]
      have hm1 : toU64 (-1) = 2 ^ 64 - 1 := by simp only [toU64]; omega
      rw [hm1]
      simp only [toI64]
      norm_num
    rw [hpack]
    have hm1 : toU64 (-1) = 2 ^ 64 - 1 := by simp only [toU64]; omega
    rw [hm1, show toU32 0 = 0 by norm_num [toU32]]
    omega

/-- C2 amended: provided the `(int32_t)` conversion of `C` is non-negative
(and in range, and `nmax` is an `int32` value), the packed word holds
`nmax`'s 32-bit pattern in its high 32 bits and the converted `C` in its low
32 bits, the two fields not disturbing each other; a float converting to a
negative `int32` is sign-extended and overwrites the high field. -/
theorem C2_amended_pack_fields (C : ℚ) (nmax : ℤ)
    (h1 : 0 ≤ f2i32 C) (h2 : f2i32 C < 2 ^ 31)
    (h3 : -2 ^ 31 ≤ nmax) (h4 : nmax < 2 ^ 31) :
    toU64 (pack_vals C nmax) / 2 ^ 32 = toU32 nmax ∧
    toU64 (pack_vals C nmax) % 2 ^ 32 = (f2i32 C).toNat := by
  have hu : toU32 nmax < 2 ^ 32 := toU32_lt nmax
  rw [pack_vals_toU64 C nmax h1 h2 h3 h4]
  constructor <;> omega

/-- Witness for the amended C2 at `C = 5/2` (which truncates to `2`) and
`nmax = -7`. -/
theorem C2_amended_pack_fields_witness :
    0 ≤ f2i32 (5 / 2 : ℚ) ∧
    toU64 (pack_vals (5 / 2) (-7)) / 2 ^ 32 = toU32 (-7) ∧
    toU64 (pack_vals (5 / 2) (-7)) % 2 ^ 32 = (f2i32 (5 / 2 : ℚ)).toNat := by
  have hf : f2i32 (5 / 2 : ℚ) = 2 := by
    rw [f2i32, truncQ, if_pos (by norm_num)]
    norm_num
  have h := C2_amended_pack_fields (5 / 2) (-7) (by rw [hf]; norm_num)
    (by rw [hf]; norm_num) (by norm_num) (by norm_num)
  exact ⟨by rw [hf]; norm_num, h.1, h.2⟩

/-- C10: for every `int32` `nmax` and every float `C` whose value is a
non-negative integer strictly below `2 ^ 31`, the round-trip holds:
`get_C (pack_vals C nmax) = C` and `get_nmax (pack_vals C nmax) = nmax`. -/
theorem C10_roundtrip_integer_float (C : ℚ) (nmax : ℤ)
    (hC : isF32 C) (hint : ∃ n : ℕ, C = (n : ℚ) ∧ n < 2 ^ 31)
    (h3 : -2 ^ 31 ≤ nmax) (h4 : nmax < 2 ^ 31) :
    get_C (pack_vals C nmax) = C ∧ get_nmax (pack_vals C nmax) = nmax := by
  obtain ⟨n, hCn, hn⟩ := hint
  exact pack_unpack C nmax n hC hCn hn h3 h4

/-- Witness for C10 at `C = 7`, `nmax = -5`. -/
theorem C10_roundtrip_integer_float_witness :
    isF32 (7 : ℚ) ∧ get_C (pack_vals 7 (-5)) = 7 ∧ get_nmax (pack_vals 7 (-5)) = -5 := by
  have hC : isF32 (7 : ℚ) := ⟨7, 0, by norm_num⟩
  have h := C10_roundtrip_integer_float 7 (-5) hC ⟨7, by norm_num, by norm_num⟩
    (by norm_num) (by norm_num)
  exact ⟨hC, h.1, h.2⟩

theorem tiles_le {b : ℕ} : ∀ {l : List (ℕ × ℕ)} {a : ℕ}, tiles a b l → a ≤ b
  | [], a, h => le_of_eq h
  | (s, e) :: rest, a, h => le_trans h.2.1 (tiles_le h.2.2)

theorem tiles_append {b : ℕ} :
    ∀ {l1 l2 : List (ℕ × ℕ)} {a : ℕ},
      tiles a b (l1 ++ l2) ↔ ∃ c, tiles a c l1 ∧ tiles c b l2 := by
  intro l1
  induction l1 with
  | nil =>
    intro l2 a
    constructor
    · intro h
      exact ⟨a, rfl, h⟩
    · rintro ⟨c, hc, h⟩
      cases hc
      exact h
  | cons p t ih =>
    intro l2 a
    obtain ⟨s, e⟩ := p
    constructor
    · rintro ⟨hs, hae, ht⟩
      obtain ⟨c, h1, h2⟩ := ih.mp ht
      exact ⟨c, ⟨hs, hae, h1⟩, h2⟩
    · rintro ⟨c, ⟨hs, hae, h1⟩, h2⟩
      exact ⟨hs, hae, ih.mpr ⟨c, h1, h2⟩⟩

theorem tiles_sum {b : ℕ} :
    ∀ {l : List (ℕ × ℕ)} {a : ℕ}, tiles a b l →
      (l.map fun p => p.2 - p.1).sum = b - a
  | [], a, h => by
    have hab : a = b := h
    simp [hab]
  | (s, e) :: rest, a, h => by
    obtain ⟨hs, hae, ht⟩ := h
    have h1 : (rest.map fun p => p.2 - p.1).sum = b - e := tiles_sum ht
    have h2 : e ≤ b := tiles_le ht
    subst hs
    simp only [List.map_cons, List.sum_cons, h1]
    omega

theorem split_ranges_tiles (k : ℕ) : ∀ (start ips rem : ℕ),
    tiles start (start + (ips * k + min rem k)) (split_ranges start ips rem k) := by
  induction k with
  | zero =>
    intro start ips rem
    simp [split_ranges, tiles]
  | succ k ih =>
    intro start ips rem
    simp only [split_ranges, tiles]
    refine ⟨by trivial, Nat.le_add_right _ _, ?_⟩
    have hmin : min rem (k + 1) = (if 0 < rem then 1 else 0) + min (rem - 1) k := by
      rcases Nat.eq_zero_or_pos rem with h | h
      · subst h; simp
      · rw [if_pos h]; omega
    have heq : start + (ips * (k + 1) + min rem (k + 1))
        = start + (ips + if 0 < rem then 1 else 0) + (ips * k + min (rem - 1) k) := by
      rw [hmin, Nat.mul_succ]
      omega
    rw [heq]
    exact ih (start + (ips + if 0 < rem then 1 else 0)) ips (rem - 1)

theorem subtask_ranges_tiles {iterations nsubtasks : ℕ} (h : 0 < nsubtasks) :
    tiles 0 iterations (subtask_ranges iterations nsubtasks) := by
  have hmin : min (iterations % nsubtasks) nsubtasks = iterations % nsubtasks :=
    Nat.min_eq_left (Nat.mod_lt _ h).le
  have h0 := split_ranges_tiles nsubtasks 0 (iterations / nsubtasks) (iterations % nsubtasks)
  rw [zero_add, hmin, Nat.mul_comm, Nat.div_add_mod] at h0
  exact h0

theorem spawned_tiles {iterations nsubtasks : ℕ} {l : List (ℕ × ℕ)}
    (hns : 0 < nsubtasks) (h : spawned iterations nsubtasks l) :
    tiles 0 iterations l := by
  induction h with
  | init => exact subtask_ranges_tiles hns
  | split pre post s m e hsp hsm hme ih =>
    obtain ⟨c, hpre, hsc, hce, hpost⟩ := tiles_append.mp ih
    refine tiles_append.mpr ⟨c, hpre, hsc, ?_, rfl, hme, hpost⟩
    omega

/-- C5: for every task submission, over every reachable family of subtasks
(the initial split followed by any chain of thief re-splits), the subtask
lengths sum to the task's iteration count, and the ranges, in order, exactly
tile `[0, iterations)` with no gap and no overlap. -/
theorem C5_subtask_partition (iterations nsubtasks : ℕ) (l : List (ℕ × ℕ))
    (hns : 0 < nsubtasks) (h : spawned iterations nsubtasks l) :
    (l.map fun p => p.2 - p.1).sum = iterations ∧ tiles 0 iterations l := by
  have ht := spawned_tiles hns h
  have hs := tiles_sum ht
  exact ⟨by omega, ht⟩

/-- Witness for C5: the initial split of 17 iterations over 4 subtasks. -/
theorem C5_subtask_partition_witness :
    ((subtask_ranges 17 4).map fun p => p.2 - p.1).sum = 17 ∧
      tiles 0 17 (subtask_ranges 17 4) :=
  C5_subtask_partition 17 4 (subtask_ranges 17 4) (by norm_num) spawned.init

/-- C6: for every submission with a positive iteration count (and at least
one subtask), the computed scheduling info satisfies
`nsubtasks * iter_pr_subtask + remainder = iterations` with
`0 ≤ remainder < nsubtasks`. -/
theorem C6_info_invariant (iterations nsubtasks : ℕ)
    (hit : 0 < iterations) (hns : 0 < nsubtasks) :
    (compute_info iterations nsubtasks).nsubtasks
        * (compute_info iterations nsubtasks).iter_pr_subtask
        + (compute_info iterations nsubtasks).remainder = iterations ∧
    (compute_info iterations nsubtasks).remainder
        < (compute_info iterations nsubtasks).nsubtasks := by
  simp only [compute_info]
  exact ⟨Nat.div_add_mod iterations nsubtasks, Nat.mod_lt _ hns⟩

/-- Witness for C6 at 17 iterations over 4 subtasks. -/
theorem C6_info_invariant_witness :
    (compute_info 17 4).nsubtasks * (compute_info 17 4).iter_pr_subtask
        + (compute_info 17 4).remainder = 17 ∧
    (compute_info 17 4).remainder < (compute_info 17 4).nsubtasks :=
  C6_info_invariant 17 4 (by norm_num) (by norm_num)

theorem dq_fold_account {α : Type} (ops : List (dq_op α)) :
    ∀ st : dq_state α,
      (↑(ops.foldl dq_step st).buf + ↑(ops.foldl dq_step st).popped
          + ↑(ops.foldl dq_step st).stolen : Multiset α)
        = ↑(dq_pushed ops) + (↑st.buf + ↑st.popped + ↑st.stolen) := by
  induction ops with
  | nil =>
    intro st
    simp [dq_pushed]
  | cons op rest ih =>
    intro st
    rw [List.foldl_cons, ih (dq_step st op)]
    cases op with
    | push_bottom x =>
      simp only [dq_step, dq_pushed, List.filterMap_cons]
      simp only [← Multiset.cons_coe, ← Multiset.singleton_add]
      abel
    | pop_bottom =>
      cases hbuf : st.buf with
      | nil =>
        simp [dq_step, hbuf, dq_pushed, List.filterMap_cons]
      | cons y t =>
        simp only [dq_step, hbuf, dq_pushed, List.filterMap_cons]
        simp only [← Multiset.cons_coe, ← Multiset.singleton_add]
        abel
    | steal =>
      cases hbuf : st.buf.reverse with
      | nil =>
        simp [dq_step, hbuf, dq_pushed, List.filterMap_cons]
      | cons y t =>
        have hb : st.buf = (y :: t).reverse := by
          rw [← hbuf, List.reverse_reverse]
        simp only [dq_step, hbuf, dq_pushed, List.filterMap_cons]
        rw [hb]
        simp only [Multiset.coe_reverse, ← Multiset.cons_coe, ← Multiset.singleton_add]
        abel

/-- C7: over every sequence of `push_bottom`, `pop_bottom` and `steal`
operations on one deque (each operation one atomic linearized step), the
multiset of pushed subtasks equals the multiset of subtasks returned by
`pop_bottom`, plus those returned by `steal`, plus those still pending in
the buffer: every pushed subtask is returned by exactly one of the two
removal operations or remains pending, never duplicated and never lost. -/
theorem C7_deque_conservation {α : Type} (ops : List (dq_op α)) :
    (↑(dq_pushed ops) : Multiset α)
      = ↑(dq_run ops).popped + ↑(dq_run ops).stolen + ↑(dq_run ops).buf := by
  have h := dq_fold_account ops ⟨[], [], []⟩
  simp only [Multiset.coe_nil, add_zero] at h
  simp only [dq_run]
  rw [← h]
  abel
